import Mathlib

/-!
Shallow embedding of the chipate CHIP-8 interpreter core
(src/core/cpu.rs, src/core/memory.rs, src/lib.rs, src/core/mod.rs).

Machine integers are modelled as `Nat` with explicit `% 256` / bounds
where the Rust types (`u8`, `u16`) wrap or panic.  Fallible operations
(array indexing that can panic, `gen_range` on an empty range) return
`Option`, with `none` standing for a Rust panic.
-/

namespace Chipate

/-- Display width in pixels (`DISPLAY_PIXELS_WIDTH` in src/lib.rs). -/
def DISPLAY_PIXELS_WIDTH : Nat := 64

/-- Display height in pixels (`DISPLAY_PIXELS_HEIGHT` in src/lib.rs). -/
def DISPLAY_PIXELS_HEIGHT : Nat := 32

/-- Number of pixels in the display buffer (`NUM_PIXELS` in src/lib.rs). -/
def NUM_PIXELS : Nat := 64 * 32

/-- Initial program counter (`PROGRAM_COUNTER_START` in src/core/cpu.rs). -/
def PROGRAM_COUNTER_START : Nat := 0x200

/-- Capacity of the instruction history (`MAX_HISTORY_SIZE` in src/core/cpu.rs). -/
def MAX_HISTORY_SIZE : Nat := 100

/-- The 4096-byte flat memory (`RAM` in src/core/memory.rs). -/
structure RAM where
  data : Fin 4096 → Nat

/-- `RAM::read`: indexes `data[address as usize]`; out-of-bounds indexing
panics in Rust, modelled as `none`. -/
def RAM.read (m : RAM) (address : Nat) : Option Nat :=
  if h : address < 4096 then some (m.data ⟨address, h⟩) else none

/-- `RAM::write`: writes `data[address as usize] = byte`; out-of-bounds
indexing panics in Rust, modelled as `none`. -/
def RAM.write (m : RAM) (address : Nat) (byte : Nat) : Option RAM :=
  if h : address < 4096 then
    some ⟨Function.update m.data ⟨address, h⟩ byte⟩
  else none

/-- The 64×32 monochrome pixel buffer (`DisplayState` in src/lib.rs). -/
structure DisplayState where
  pixels : Fin 2048 → Bool

/-- `DisplayState::clear`. -/
def DisplayState.clear (_d : DisplayState) : DisplayState :=
  ⟨fun _ => false⟩

/-- `DisplayState::read_pixel`: `pixels[idx as usize]`, panics out of bounds. -/
def DisplayState.read_pixel (d : DisplayState) (idx : Nat) : Option Bool :=
  if h : idx < 2048 then some (d.pixels ⟨idx, h⟩) else none

/-- `DisplayState::write_pixel`: `pixels[idx as usize] = value`, panics out of
bounds. -/
def DisplayState.write_pixel (d : DisplayState) (idx : Nat) (value : Bool) :
    Option DisplayState :=
  if h : idx < 2048 then
    some ⟨Function.update d.pixels ⟨idx, h⟩ value⟩
  else none

/-- The 16-entry pressed/released key vector (`KeyState` in src/lib.rs). -/
structure KeyState where
  keys : Fin 16 → Bool

/-- `KeyState::get_pressed_key`: iterates the 16 flags in index order and
returns the first pressed index as a byte (`find_map` over `enumerate`). -/
def KeyState.get_pressed_key (k : KeyState) : Option Nat :=
  ((List.finRange 16).find? (fun idx => k.keys idx)).map Fin.val

/-- `KeyState::is_key_pressed` composed with `Key::from(idx)`: for an index
already in `[0,15]` this is just the corresponding flag. -/
def KeyState.is_key_pressed (k : KeyState) (idx : Fin 16) : Bool :=
  k.keys idx

/-- `Font::char_addr` (src/core/mod.rs): `FONT_START_ADDR + 5 * char`. -/
def Font.char_addr (c : Nat) : Nat := 0x050 + 5 * c

/-- The register file (`Registers` in src/core/cpu.rs): sixteen 8-bit
general registers and the 16-bit index register. -/
structure Registers where
  vs : Fin 16 → Nat
  i : Nat

/-- `Registers::set_f`: writes the flags register `vs[15]`. -/
def Registers.set_f (r : Registers) (value : Nat) : Registers :=
  { r with vs := Function.update r.vs 15 value }

/-- Quirks mode (`Mode` in src/core/cpu.rs). -/
inductive Mode
  | Classic
  | Modern
deriving DecidableEq, Repr

/-- The decoded instruction set (`Instruction` in src/core/cpu.rs).
Register indices are `Fin 16`, mirroring that the decoder produces them
from 4-bit nibbles, hence always in range. -/
inductive Instruction
  | Add (vx vy : Fin 16)
  | AddIndex (v : Fin 16)
  | AddRegister (v : Fin 16) (value : Nat)
  | And (vx vy : Fin 16)
  | BcdConversion (v : Fin 16)
  | ClearScreen
  | DelayTimerLoad (v : Fin 16)
  | DelayTimerSet (v : Fin 16)
  | Display (vx vy : Fin 16) (pixels : Nat)
  | GetKey (v : Fin 16)
  | Jump (address : Nat)
  | Load (n : Fin 16)
  | LoadFontChar (v : Fin 16)
  | MachineLanguageRoutine (address : Nat)
  | Or (vx vy : Fin 16)
  | Random (v : Fin 16) (value : Nat)
  | SetIndex (value : Nat)
  | Set (v : Fin 16) (value : Nat)
  | SetRegister (vx vy : Fin 16)
  | ShiftLeft (vx vy : Fin 16)
  | ShiftRight (vx vy : Fin 16)
  | SkipEqual (v : Fin 16) (value : Nat)
  | SkipEqualReg (vx vy : Fin 16)
  | SkipIfKeyNotPressed (v : Fin 16)
  | SkipIfKeyPressed (v : Fin 16)
  | SkipNotEqual (v : Fin 16) (value : Nat)
  | SkipNotEqualReg (vx vy : Fin 16)
  | SoundTimerSet (v : Fin 16)
  | Store (n : Fin 16)
  | Subtract (vx vy : Fin 16)
  | SubtractRev (vx vy : Fin 16)
  | SubroutineCall (address : Nat)
  | SubroutineReturn
  | Xor (vx vy : Fin 16)
deriving DecidableEq, Repr

/-- The `X` nibble of an opcode: `(op_code & 0x0F00) >> 8`, by construction
in `[0,15]`. -/
def nibbleX (op : Nat) : Fin 16 := ⟨op / 256 % 16, Nat.mod_lt _ (by decide)⟩

/-- The `Y` nibble of an opcode: `(op_code & 0x00F0) >> 4`. -/
def nibbleY (op : Nat) : Fin 16 := ⟨op / 16 % 16, Nat.mod_lt _ (by decide)⟩

/-- `Instruction::from_op_code` (src/core/cpu.rs): pure decoder from a
16-bit opcode word to a tagged instruction, or `none` for unrecognized. -/
def Instruction.from_op_code (op : Nat) : Option Instruction :=
  let x := nibbleX op
  let y := nibbleY op
  let n := op % 16
  let nn := op % 256
  let nnn := op % 4096
  match op / 4096 % 16 with
  | 0x0 =>
    match nnn with
    | 0x0E0 => some Instruction.ClearScreen
    | 0x0EE => some Instruction.SubroutineReturn
    | _ => some (Instruction.MachineLanguageRoutine nnn)
  | 0x1 => some (Instruction.Jump nnn)
  | 0x2 => some (Instruction.SubroutineCall nnn)
  | 0x3 => some (Instruction.SkipEqual x nn)
  | 0x4 => some (Instruction.SkipNotEqual x nn)
  | 0x5 => some (Instruction.SkipEqualReg x y)
  | 0x6 => some (Instruction.Set x nn)
  | 0x7 => some (Instruction.AddRegister x nn)
  | 0x8 =>
    match n with
    | 0x0 => some (Instruction.SetRegister x y)
    | 0x1 => some (Instruction.Or x y)
    | 0x2 => some (Instruction.And x y)
    | 0x3 => some (Instruction.Xor x y)
    | 0x4 => some (Instruction.Add x y)
    | 0x5 => some (Instruction.Subtract x y)
    | 0x6 => some (Instruction.ShiftRight x y)
    | 0x7 => some (Instruction.SubtractRev x y)
    | 0xE => some (Instruction.ShiftLeft x y)
    | _ => none
  | 0x9 => some (Instruction.SkipNotEqualReg x y)
  | 0xA => some (Instruction.SetIndex nnn)
  | 0xC => some (Instruction.Random x nn)
  | 0xD => some (Instruction.Display x y n)
  | 0xE =>
    match nn with
    | 0x9E => some (Instruction.SkipIfKeyPressed x)
    | 0xA1 => some (Instruction.SkipIfKeyNotPressed x)
    | _ => none
  | 0xF =>
    match nn with
    | 0x07 => some (Instruction.DelayTimerLoad x)
    | 0x0A => some (Instruction.GetKey x)
    | 0x15 => some (Instruction.DelayTimerSet x)
    | 0x18 => some (Instruction.SoundTimerSet x)
    | 0x1E => some (Instruction.AddIndex x)
    | 0x29 => some (Instruction.LoadFontChar x)
    | 0x33 => some (Instruction.BcdConversion x)
    | 0x55 => some (Instruction.Store x)
    | 0x65 => some (Instruction.Load x)
    | _ => none
  | _ => none

/-- CPU state (`CPU` in src/core/cpu.rs).  The thread-local random
generator is not part of the state; the drawn random value is supplied to
`execute` as an oracle argument. -/
structure CPU where
  mode : Mode
  registers : Registers
  prog_counter : Nat
  stack : List Nat
  delay_timer : Nat
  sound_timer : Nat
  history : List Instruction

/-- `Stack::push`: the Rust `Vec` pushes and pops at the same end; the
list head models the top of the stack. -/
def stackPush (s : List Nat) (address : Nat) : List Nat := address :: s

/-- `Stack::pop`: removes and returns the most recently pushed address. -/
def stackPop (s : List Nat) : Option (Nat × List Nat) :=
  match s with
  | [] => none
  | a :: rest => some (a, rest)

/-- History append at the end with front eviction at capacity
(`VecDeque` push_back / pop_front in `CPU::execute`). -/
def pushHistory (h : List Instruction) (ins : Instruction) : List Instruction :=
  if h.length = MAX_HISTORY_SIZE then h.tail ++ [ins] else h ++ [ins]

/-- `CPU::default`: Modern mode, zero registers, program counter `0x200`,
empty stack, zero timers, empty history. -/
def CPU.default : CPU where
  mode := Mode.Modern
  registers := ⟨fun _ => 0, 0⟩
  prog_counter := PROGRAM_COUNTER_START
  stack := []
  delay_timer := 0
  sound_timer := 0
  history := []

/-- Inner column loop of `CPU::display`: XOR the 8 sprite bits of one row
byte `b` into the display at row `y`, advancing `x` and breaking early when
the right edge is reached.  Returns the updated registers (the flags write),
display, and column position. -/
def drawCols (b y : Nat) :
    List Nat → Registers → DisplayState → Nat →
    Option (Registers × DisplayState × Nat)
  | [], r, d, x => some (r, d, x)
  | j :: js, r, d, x =>
    let px := b &&& (1 <<< (7 - j))
    let idx := y * DISPLAY_PIXELS_WIDTH + x
    match d.read_pixel idx with
    | none => none
    | some px_current =>
      match d.write_pixel idx (Bool.xor px_current (px != 0)) with
      | none => none
      | some d2 =>
        let r2 := if px_current && Bool.xor (px != 0) px_current
          then r.set_f 1 else r
        let x2 := x + 1
        if DISPLAY_PIXELS_WIDTH ≤ x2 then some (r2, d2, x2)
        else drawCols b y js r2 d2 x2

/-- Outer row loop of `CPU::display`: one sprite row per memory byte
starting at the index register, advancing `y` and breaking early at the
bottom edge; `x` is reset from `Vx` (mod width) before each new row. -/
def drawRows (mem : RAM) (vx : Fin 16) :
    List Nat → Registers → DisplayState → Nat → Nat →
    Option (Registers × DisplayState)
  | [], r, d, _, _ => some (r, d)
  | i :: is, r, d, x, y =>
    match mem.read (r.i + i) with
    | none => none
    | some b =>
      match drawCols b y [0, 1, 2, 3, 4, 5, 6, 7] r d x with
      | none => none
      | some (r2, d2, _) =>
        let y2 := y + 1
        if DISPLAY_PIXELS_HEIGHT ≤ y2 then some (r2, d2)
        else drawRows mem vx is r2 d2 (r2.vs vx % DISPLAY_PIXELS_WIDTH) y2

/-- `CPU::display` (src/core/cpu.rs): the sprite draw algorithm.  Clears
the flags register, then XORs `pixels` rows of 8 bits into the buffer at
`(Vx mod 64, Vy mod 32)` with edge clipping. -/
def CPU.display (cpu : CPU) (mem : RAM) (disp : DisplayState)
    (vx vy : Fin 16) (pixels : Nat) : Option (Registers × DisplayState) :=
  let x := cpu.registers.vs vx % DISPLAY_PIXELS_WIDTH
  let y := cpu.registers.vs vy % DISPLAY_PIXELS_HEIGHT
  let r0 := cpu.registers.set_f 0
  drawRows mem vx (List.range pixels) r0 disp x y

/-- `Classic`-mode body of the `Load` (`FX65`) loop: read at the index
register, then increment it, once per transferred register. -/
def loadClassic (mem : RAM) : List (Fin 16) → Registers → Option Registers
  | [], r => some r
  | k :: ks, r =>
    match mem.read r.i with
    | none => none
    | some b => loadClassic mem ks ⟨Function.update r.vs k b, r.i + 1⟩

/-- `Modern`-mode body of the `Load` (`FX65`) loop: each byte is addressed
at `index + offset`, index register untouched. -/
def loadModern (mem : RAM) (i0 : Nat) :
    List (Fin 16) → (Fin 16 → Nat) → Option (Fin 16 → Nat)
  | [], vs => some vs
  | k :: ks, vs =>
    match mem.read (i0 + k.val) with
    | none => none
    | some b => loadModern mem i0 ks (Function.update vs k b)

/-- `Classic`-mode body of the `Store` (`FX55`) loop: write at the index
register, then increment it, once per transferred register. -/
def storeClassic (vs : Fin 16 → Nat) :
    List (Fin 16) → Nat → RAM → Option (Nat × RAM)
  | [], i, m => some (i, m)
  | k :: ks, i, m =>
    match m.write i (vs k) with
    | none => none
    | some m2 => storeClassic vs ks (i + 1) m2

/-- `Modern`-mode body of the `Store` (`FX55`) loop: each byte is addressed
at `index + offset`, index register untouched. -/
def storeModern (vs : Fin 16 → Nat) (i0 : Nat) :
    List (Fin 16) → RAM → Option RAM
  | [], m => some m
  | k :: ks, m =>
    match m.write (i0 + k.val) (vs k) with
    | none => none
    | some m2 => storeModern vs i0 ks m2

/-- The instruction dispatch `match` of `CPU::execute` (src/core/cpu.rs):
the per-instruction semantics, before the trailing history append.  `rand`
is the oracle value consumed by the `Random` instruction.  `none` models a
Rust panic. -/
def CPU.executeInner (cpu : CPU) (ins : Instruction) (mem : RAM)
    (disp : DisplayState) (keys : KeyState) (rand : Nat) :
    Option (CPU × RAM × DisplayState) :=
  match ins with
    | .Add vx vy =>
      let a := cpu.registers.vs vx
      let b := cpu.registers.vs vy
      let value := (a + b) % 256
      let r1 := { cpu.registers with vs := Function.update cpu.registers.vs vx value }
      let r2 := if 256 ≤ a + b then r1.set_f 1 else r1.set_f 0
      some ({ cpu with registers := r2 }, mem, disp)
    | .AddIndex v =>
      let i2 := cpu.registers.i + cpu.registers.vs v
      if 65536 ≤ i2 then none
      else
        let r1 := { cpu.registers with i := i2 }
        let r2 := if 0x1000 ≤ i2 then r1.set_f 1 else r1
        some ({ cpu with registers := r2 }, mem, disp)
    | .AddRegister v value =>
      let b := (cpu.registers.vs v + value) % 256
      some ({ cpu with registers :=
        { cpu.registers with vs := Function.update cpu.registers.vs v b } }, mem, disp)
    | .And vx vy =>
      some ({ cpu with registers := { cpu.registers with
        vs := Function.update cpu.registers.vs vx
          (cpu.registers.vs vx &&& cpu.registers.vs vy) } }, mem, disp)
    | .BcdConversion v =>
      let value := cpu.registers.vs v
      match mem.write cpu.registers.i (value / 100) with
      | none => none
      | some m1 =>
        match m1.write (cpu.registers.i + 1) (value % 100 / 10) with
        | none => none
        | some m2 =>
          match m2.write (cpu.registers.i + 2) (value % 10) with
          | none => none
          | some m3 => some (cpu, m3, disp)
    | .ClearScreen => some (cpu, mem, disp.clear)
    | .DelayTimerLoad v =>
      some ({ cpu with delay_timer := cpu.registers.vs v }, mem, disp)
    | .DelayTimerSet v =>
      some ({ cpu with delay_timer := cpu.registers.vs v }, mem, disp)
    | .Display vx vy pixels =>
      match cpu.display mem disp vx vy pixels with
      | none => none
      | some (r2, d2) => some ({ cpu with registers := r2 }, mem, d2)
    | .GetKey v =>
      match keys.get_pressed_key with
      | some key =>
        some ({ cpu with registers := { cpu.registers with
          vs := Function.update cpu.registers.vs v key } }, mem, disp)
      | none =>
        if cpu.prog_counter < 2 then none
        else some ({ cpu with prog_counter := cpu.prog_counter - 2 }, mem, disp)
    | .Jump address => some ({ cpu with prog_counter := address }, mem, disp)
    | .Load n =>
      match cpu.mode with
      | Mode.Classic =>
        match loadClassic mem ((List.finRange 16).take (n.val + 1)) cpu.registers with
        | none => none
        | some r2 => some ({ cpu with registers := r2 }, mem, disp)
      | Mode.Modern =>
        match loadModern mem cpu.registers.i
            ((List.finRange 16).take (n.val + 1)) cpu.registers.vs with
        | none => none
        | some vs2 =>
          some ({ cpu with registers := { cpu.registers with vs := vs2 } }, mem, disp)
    | .LoadFontChar v =>
      some ({ cpu with registers :=
        { cpu.registers with i := Font.char_addr (cpu.registers.vs v) } }, mem, disp)
    | .MachineLanguageRoutine _ => some (cpu, mem, disp)
    | .Or vx vy =>
      some ({ cpu with registers := { cpu.registers with
        vs := Function.update cpu.registers.vs vx
          (cpu.registers.vs vx ||| cpu.registers.vs vy) } }, mem, disp)
    | .Random v value =>
      if value = 0 then none
      else
        some ({ cpu with registers := { cpu.registers with
          vs := Function.update cpu.registers.vs v ((rand % value) &&& value) } },
          mem, disp)
    | .SetIndex value =>
      some ({ cpu with registers := { cpu.registers with i := value } }, mem, disp)
    | .Set v value =>
      some ({ cpu with registers := { cpu.registers with
        vs := Function.update cpu.registers.vs v value } }, mem, disp)
    | .SetRegister vx vy =>
      some ({ cpu with registers := { cpu.registers with
        vs := Function.update cpu.registers.vs vx (cpu.registers.vs vy) } }, mem, disp)
    | .ShiftLeft vx vy =>
      let r0 := if cpu.mode = Mode.Classic
        then { cpu.registers with
          vs := Function.update cpu.registers.vs vx (cpu.registers.vs vy) }
        else cpu.registers
      let value := (r0.vs vx * 2) % 256
      let r1 := { r0 with vs := Function.update r0.vs vx value }
      let r2 := if r0.vs vx &&& 0x80 ≠ 0 then r1.set_f 1 else r1.set_f 0
      some ({ cpu with registers := r2 }, mem, disp)
    | .ShiftRight vx vy =>
      let r0 := if cpu.mode = Mode.Classic
        then { cpu.registers with
          vs := Function.update cpu.registers.vs vx (cpu.registers.vs vy) }
        else cpu.registers
      let value := r0.vs vx / 2
      let r1 := { r0 with vs := Function.update r0.vs vx value }
      let r2 := if r0.vs vx &&& 0x1 ≠ 0 then r1.set_f 1 else r1.set_f 0
      some ({ cpu with registers := r2 }, mem, disp)
    | .SkipEqual v value =>
      if cpu.registers.vs v = value then
        if 65534 < cpu.prog_counter then none
        else some ({ cpu with prog_counter := cpu.prog_counter + 2 }, mem, disp)
      else some (cpu, mem, disp)
    | .SkipEqualReg vx vy =>
      if cpu.registers.vs vx = cpu.registers.vs vy then
        if 65534 < cpu.prog_counter then none
        else some ({ cpu with prog_counter := cpu.prog_counter + 2 }, mem, disp)
      else some (cpu, mem, disp)
    | .SkipIfKeyNotPressed v =>
      if keys.is_key_pressed v then some (cpu, mem, disp)
      else
        if 65534 < cpu.prog_counter then none
        else some ({ cpu with prog_counter := cpu.prog_counter + 2 }, mem, disp)
    | .SkipIfKeyPressed v =>
      if keys.is_key_pressed v then
        if 65534 < cpu.prog_counter then none
        else some ({ cpu with prog_counter := cpu.prog_counter + 2 }, mem, disp)
      else some (cpu, mem, disp)
    | .SkipNotEqual v value =>
      if cpu.registers.vs v = value then some (cpu, mem, disp)
      else
        if 65534 < cpu.prog_counter then none
        else some ({ cpu with prog_counter := cpu.prog_counter + 2 }, mem, disp)
    | .SkipNotEqualReg vx vy =>
      if cpu.registers.vs vx = cpu.registers.vs vy then some (cpu, mem, disp)
      else
        if 65534 < cpu.prog_counter then none
        else some ({ cpu with prog_counter := cpu.prog_counter + 2 }, mem, disp)
    | .SoundTimerSet v =>
      some ({ cpu with sound_timer := cpu.registers.vs v }, mem, disp)
    | .Store n =>
      match cpu.mode with
      | Mode.Classic =>
        match storeClassic cpu.registers.vs ((List.finRange 16).take (n.val + 1))
            cpu.registers.i mem with
        | none => none
        | some (i2, m2) =>
          some ({ cpu with registers := { cpu.registers with i := i2 } }, m2, disp)
      | Mode.Modern =>
        match storeModern cpu.registers.vs cpu.registers.i
            ((List.finRange 16).take (n.val + 1)) mem with
        | none => none
        | some m2 => some (cpu, m2, disp)
    | .Subtract vx vy =>
      let minuend := cpu.registers.vs vx
      let subtrahend := cpu.registers.vs vy
      let value := (minuend + 256 - subtrahend) % 256
      let r1 := { cpu.registers with vs := Function.update cpu.registers.vs vx value }
      let r2 := if minuend < subtrahend then r1.set_f 0 else r1.set_f 1
      some ({ cpu with registers := r2 }, mem, disp)
    | .SubtractRev vx vy =>
      let minuend := cpu.registers.vs vy
      let subtrahend := cpu.registers.vs vx
      let value := (minuend + 256 - subtrahend) % 256
      let r1 := { cpu.registers with vs := Function.update cpu.registers.vs vx value }
      let r2 := if minuend < subtrahend then r1.set_f 0 else r1.set_f 1
      some ({ cpu with registers := r2 }, mem, disp)
    | .SubroutineCall address =>
      some ({ cpu with
        stack := stackPush cpu.stack cpu.prog_counter
        prog_counter := address }, mem, disp)
    | .SubroutineReturn =>
      match stackPop cpu.stack with
      | some (address, rest) =>
        some ({ cpu with prog_counter := address, stack := rest }, mem, disp)
      | none => some (cpu, mem, disp)
    | .Xor vx vy =>
      some ({ cpu with registers := { cpu.registers with
        vs := Function.update cpu.registers.vs vx
          (cpu.registers.vs vx ^^^ cpu.registers.vs vy) } }, mem, disp)

/-- `CPU::execute` (src/core/cpu.rs): the instruction dispatch followed by
the unconditional history append. -/
def CPU.execute (cpu : CPU) (ins : Instruction) (mem : RAM)
    (disp : DisplayState) (keys : KeyState) (rand : Nat) :
    Option (CPU × RAM × DisplayState) :=
  match cpu.executeInner ins mem disp keys rand with
  | none => none
  | some (c, m, d) =>
    some ({ c with history := pushHistory c.history ins }, m, d)

/-- `CPU::tick` (src/core/cpu.rs): fetch two bytes big-endian at the
program counter, advance it by 2, decode, then execute; an unrecognized
opcode is skipped (the fetch advance stands). -/
def CPU.tick (cpu : CPU) (mem : RAM) (disp : DisplayState) (keys : KeyState)
    (rand : Nat) : Option (CPU × RAM × DisplayState) :=
  match mem.read cpu.prog_counter, mem.read (cpu.prog_counter + 1) with
  | some high, some low =>
    let cpu1 := { cpu with prog_counter := cpu.prog_counter + 2 }
    let op := (high <<< 8) ||| low
    match Instruction.from_op_code op with
    | none => some (cpu1, mem, disp)
    | some instruction => cpu1.execute instruction mem disp keys rand
  | _, _ => none

/-! Concrete fixtures used to exercise the embedding. -/

/-- All-zero memory. -/
def mem0 : RAM := ⟨fun _ => 0⟩

/-- Blank display. -/
def disp0 : DisplayState := ⟨fun _ => false⟩

/-- No key pressed. -/
def keys0 : KeyState := ⟨fun _ => false⟩

/-- Read a pixel as a plain `Bool` (`false` when out of bounds). -/
def px (d : DisplayState) (k : Nat) : Bool := (d.read_pixel k).getD false

/-- Memory holding the 1-byte sprite `0xFF` at address `0x300`. -/
def c1_mem : RAM := ⟨fun a => if a.val = 0x300 then 0xFF else 0⟩

/-- CPU whose index register points at the sprite, all `V` registers zero. -/
def c1_cpu : CPU := { CPU.default with registers := ⟨fun _ => 0, 0x300⟩ }

/-- First draw of the sprite `0xFF` at `(V0, V1) = (0, 0)`. -/
def c1_draw1 : Option (CPU × RAM × DisplayState) :=
  c1_cpu.execute (Instruction.Display 0 1 1) c1_mem disp0 keys0 0

/-- Second draw of the same sprite at the same position. -/
def c1_draw2 : Option (CPU × RAM × DisplayState) :=
  c1_draw1.bind (fun t => t.1.execute (Instruction.Display 0 1 1) t.2.1 t.2.2 keys0 0)

/-- CPU with delay timer 5 and `V0 = 7`. -/
def c3_cpu : CPU :=
  { CPU.default with
    delay_timer := 5
    registers := ⟨fun k => if k.val = 0 then 7 else 0, 0⟩ }

/-- Executing the `0xF007`-decoded instruction on `c3_cpu`. -/
def c3_exec : Option (CPU × RAM × DisplayState) :=
  c3_cpu.execute (Instruction.DelayTimerLoad 0) mem0 disp0 keys0 0

/-- Memory holding the opcode `0x1201` (jump to the odd address `0x201`)
at the initial program counter. -/
def c4_mem : RAM :=
  ⟨fun a => if a.val = 0x200 then 0x12 else if a.val = 0x201 then 0x01 else 0⟩

/-- The big-endian opcode word fetched at the current program counter,
`none` when either byte read panics. -/
def fetched_op (cpu : CPU) (mem : RAM) : Option Nat :=
  match mem.read cpu.prog_counter, mem.read (cpu.prog_counter + 1) with
  | some high, some low => some ((high <<< 8) ||| low)
  | _, _ => none

/-- An instruction whose control transfer target (if any) is even-aligned. -/
def evenTarget : Instruction → Prop
  | Instruction.Jump address => address % 2 = 0
  | Instruction.SubroutineCall address => address % 2 = 0
  | _ => True

/-- One successful `tick` step, for some key state and random oracle, in
which a decoded jump or call (if any) targets an even address. -/
def StepOk (s t : CPU × RAM × DisplayState) : Prop :=
  (∃ keys rand, s.1.tick s.2.1 s.2.2 keys rand = some t) ∧
    (∀ op ins, fetched_op s.1 s.2.1 = some op →
      Instruction.from_op_code op = some ins → evenTarget ins)

/-- The strengthened alignment invariant: the program counter and every
return address on the call stack are even. -/
def PcInv (s : CPU × RAM × DisplayState) : Prop :=
  s.1.prog_counter % 2 = 0 ∧ ∀ a ∈ s.1.stack, a % 2 = 0

/-- CPU with `V0 = 5`, `V1 = 3` (the subtract example inputs). -/
def c5_cpu : CPU :=
  { CPU.default with
    registers := ⟨fun k => if k.val = 0 then 5 else if k.val = 1 then 3 else 0, 0⟩ }

/-- Classic-mode CPU with `V1 = 0x81` (the shift example inputs). -/
def c6_cpu : CPU :=
  { CPU.default with
    mode := Mode.Classic
    registers := ⟨fun k => if k.val = 1 then 0x81 else 0, 0⟩ }

/-- Memory holding the get-key opcode `0xF30A` at the initial program
counter. -/
def c7_mem : RAM :=
  ⟨fun a => if a.val = 0x200 then 0xF3 else if a.val = 0x201 then 0x0A else 0⟩

/-- Key state with keys `5` and `9` pressed. -/
def c7_keys : KeyState := ⟨fun k => k.val = 5 || k.val = 9⟩

/-- Classic-mode CPU with `V0..V2 = 10, 20, 30` and index register `0x400`. -/
def c8_cpu : CPU :=
  { CPU.default with
    mode := Mode.Classic
    registers := ⟨fun k => 10 * (k.val + 1), 0x400⟩ }

/-- Memory holding `0x2300` (call `0x300`) at `0x200` and `0x00EE`
(return) at `0x300`. -/
def c9_mem : RAM :=
  ⟨fun a => if a.val = 0x200 then 0x23 else if a.val = 0x301 then 0xEE else 0⟩

/-- CPU with `V0 = 0x20`, `VF = 9` and index register `0xF00`. -/
def c10_cpu : CPU :=
  { CPU.default with
    registers := ⟨fun k => if k.val = 0 then 0x20 else if k.val = 15 then 9 else 0, 0xF00⟩ }

/-- Reading the flags register right after `set_f` yields the written
value. -/
theorem set_f_vs (r : Registers) (val : Nat) : (r.set_f val).vs 15 = val := by
  simp [Registers.set_f]

/-- `set_f` leaves every register other than `VF` unchanged. -/
theorem set_f_vs_ne (r : Registers) (val : Nat) {k : Fin 16} (h : k ≠ 15) :
    (r.set_f val).vs k = r.vs k := by
  simp [Registers.set_f, Function.update_noteq h]

/-- The flag computed from the high bit test `a &&& 0x80 != 0` equals bit 7
of an 8-bit value. -/
theorem flag_and_128 (a : Nat) (h : a < 256) :
    (if a &&& 0x80 ≠ 0 then (1 : Nat) else 0) = a / 128 := by
  have h2 : a &&& 0x80 = (a.testBit 7).toNat * 128 := Nat.and_two_pow a 7
  have h3 : a.testBit 7 = decide (a / 128 % 2 = 1) := Nat.testBit_to_div_mod
  have h5 : a / 128 % 2 = a / 128 := Nat.mod_eq_of_lt (by omega)
  have key : (a &&& 0x80 ≠ 0) ↔ a / 128 = 1 := by
    rw [h2, h3, h5]
    by_cases hd : a / 128 = 1 <;> simp [hd]
  by_cases hd : a / 128 = 1
  · rw [if_pos (key.mpr hd), hd]
  · have h0 : a / 128 = 0 := by omega
    rw [if_neg (fun hc => hd (key.mp hc)), h0]

/-- The flag computed from the low bit test `a &&& 0x1 != 0` equals bit 0. -/
theorem flag_and_1 (a : Nat) :
    (if a &&& 0x1 ≠ 0 then (1 : Nat) else 0) = a % 2 := by
  have h2 : a &&& 0x1 = a % 2 := Nat.and_one_is_mod a
  rcases Nat.mod_two_eq_zero_or_one a with h | h
  · rw [if_neg (by rw [h2, h]; simp), h]
  · rw [if_pos (by rw [h2, h]; simp), h]

/-- A conditional flag write commutes with the conditional. -/
theorem set_f_ite (r : Registers) (c : Prop) [Decidable c] :
    (if c then r.set_f 1 else r.set_f 0) = r.set_f (if c then 1 else 0) :=
  (apply_ite r.set_f c 1 0).symm

/-- C1: drawing the 1-byte sprite `0xFF` at `(0,0)` on a blank 64×32
buffer sets pixels 0..7 of row 0 and leaves `VF = 0`; but drawing it again
at the same position, while it does clear those pixels by XOR, leaves
`VF = 0` — the per-pixel collision test in the code, `px_current && ((px != 0) ^
px_current)` fires only when a lit pixel meets a zero sprite bit, so the
claimed collision (`VF = 1`) is never reported here. -/
theorem chipate_C1_collision_flag_inverted :
    c1_draw1.map (fun t => t.1.registers.vs 15) = some 0 ∧
    c1_draw1.map (fun t => (List.range 8).map (px t.2.2)) =
      some (List.replicate 8 true) ∧
    c1_draw2.map (fun t => (List.range 8).map (px t.2.2)) =
      some (List.replicate 8 false) ∧
    c1_draw2.map (fun t => t.1.registers.vs 15) = some 0 := by
  refine ⟨by decide, by decide, by decide, by decide⟩

/-- C2: the `Random` instruction with immediate `NN = 0` calls
`gen_range(0..0)` on an empty range, which panics; the execute semantics
are not panic-free on this validly decoded input. -/
theorem chipate_C2_random_zero_panics :
    CPU.default.execute (Instruction.Random 0 0) mem0 disp0 keys0 7 = none := rfl

/-- C3: executing the `0xF007`-decoded instruction (`DelayTimerLoad`) on a
CPU with delay timer 5 and `V0 = 7` overwrites the delay timer with `V0`
(timer becomes 7) and leaves `V0` untouched — the code performs a timer
set, not the claimed timer get (`V0` should have become 5 with the timer
unchanged). -/
theorem chipate_C3_delay_load_is_a_set :
    c3_exec.map (fun t => (t.1.delay_timer, t.1.registers.vs 0)) = some (7, 7) := by
  decide

/-- C4 counterexample: from the initial state (program counter `0x200`),
one tick over memory holding the opcode `0x1201` jumps to the odd address
`0x201`, so the program counter is not always even-aligned. -/
theorem chipate_C4_odd_pc_reachable :
    (CPU.default.tick c4_mem disp0 keys0 0).map (fun t => t.1.prog_counter) =
      some 0x201 := by
  decide

/-- C10: `AddIndex` whose resulting index stays below `0x1000` modifies
only the index register: every `V` register (in particular `VF`) as well
as the program counter, stack and timers are left unchanged. -/
theorem chipate_C10_addindex_keeps_flags
    (cpu : CPU) (mem : RAM) (disp : DisplayState) (keys : KeyState) (rand : Nat)
    (v : Fin 16) (h : cpu.registers.i + cpu.registers.vs v < 0x1000) :
    ∃ c, cpu.execute (Instruction.AddIndex v) mem disp keys rand =
        some (c, mem, disp) ∧
      c.registers.vs = cpu.registers.vs ∧
      c.registers.i = cpu.registers.i + cpu.registers.vs v ∧
      c.prog_counter = cpu.prog_counter ∧
      c.stack = cpu.stack ∧
      c.delay_timer = cpu.delay_timer ∧
      c.sound_timer = cpu.sound_timer := by
  have h1 : ¬ (65536 ≤ cpu.registers.i + cpu.registers.vs v) := by omega
  have h2 : ¬ (0x1000 ≤ cpu.registers.i + cpu.registers.vs v) := by omega
  simp only [CPU.execute, CPU.executeInner]
  rw [if_neg h1, if_neg h2]
  exact ⟨_, rfl, rfl, rfl, rfl, rfl, rfl, rfl⟩

/-- C10 witness: `I = 0xF00`, `V0 = 0x20`, `VF = 9` stays below `0x1000`,
and the theorem applies. -/
theorem chipate_C10_addindex_keeps_flags_witness :
    c10_cpu.registers.i + c10_cpu.registers.vs 0 < 0x1000 ∧
    ∃ c, c10_cpu.execute (Instruction.AddIndex 0) mem0 disp0 keys0 0 =
        some (c, mem0, disp0) ∧
      c.registers.vs = c10_cpu.registers.vs ∧
      c.registers.i = c10_cpu.registers.i + c10_cpu.registers.vs 0 ∧
      c.prog_counter = c10_cpu.prog_counter ∧
      c.stack = c10_cpu.stack ∧
      c.delay_timer = c10_cpu.delay_timer ∧
      c.sound_timer = c10_cpu.sound_timer :=
  ⟨by decide, chipate_C10_addindex_keeps_flags c10_cpu mem0 disp0 keys0 0 0 (by decide)⟩

/-- C9: returning on an empty stack changes none of the program counter,
registers, stack or timers; returning on a non-empty stack pops the last
pushed address into the program counter; and a call immediately followed
by a return restores the program counter to its post-fetch value. -/
theorem chipate_C9_call_return
    (cpu : CPU) (mem : RAM) (disp : DisplayState) (keys : KeyState) (rand : Nat) :
    (cpu.stack = [] →
      ∃ c, cpu.execute Instruction.SubroutineReturn mem disp keys rand =
          some (c, mem, disp) ∧
        c.prog_counter = cpu.prog_counter ∧
        c.registers = cpu.registers ∧
        c.stack = [] ∧
        c.delay_timer = cpu.delay_timer ∧
        c.sound_timer = cpu.sound_timer) ∧
    (∀ a rest, cpu.stack = a :: rest →
      ∃ c, cpu.execute Instruction.SubroutineReturn mem disp keys rand =
          some (c, mem, disp) ∧
        c.prog_counter = a ∧ c.stack = rest) ∧
    (∀ address high low,
      mem.read cpu.prog_counter = some high →
      mem.read (cpu.prog_counter + 1) = some low →
      Instruction.from_op_code ((high <<< 8) ||| low) =
        some (Instruction.SubroutineCall address) →
      mem.read address = some 0x00 →
      mem.read (address + 1) = some 0xEE →
      ∃ c1, cpu.tick mem disp keys rand = some (c1, mem, disp) ∧
        c1.prog_counter = address ∧
        ∃ c2, c1.tick mem disp keys rand = some (c2, mem, disp) ∧
          c2.prog_counter = cpu.prog_counter + 2) := by
  refine ⟨?_, ?_, ?_⟩
  · intro h
    simp only [CPU.execute, CPU.executeInner, stackPop, h]
    exact ⟨_, rfl, rfl, rfl, rfl, rfl, rfl⟩
  · intro a rest h
    simp only [CPU.execute, CPU.executeInner, stackPop, h]
    exact ⟨_, rfl, rfl, rfl⟩
  · intro address high low h1 h2 hdec ht1 ht2
    simp only [CPU.tick, h1, h2, hdec]
    simp only [CPU.execute, CPU.executeInner, stackPush]
    refine ⟨_, rfl, rfl, ?_⟩
    simp only [CPU.tick, ht1, ht2]
    have hr : Instruction.from_op_code ((0x00 <<< 8) ||| 0xEE) =
        some Instruction.SubroutineReturn := by decide
    simp only [hr]
    simp only [CPU.execute, CPU.executeInner, stackPop]
    exact ⟨_, rfl, rfl⟩

/-- C9 witness: over `c9_mem` (call `0x300` at `0x200`, return at `0x300`)
the call/return pair restores the program counter to `0x202`. -/
theorem chipate_C9_call_return_witness :
    ∃ c1, CPU.default.tick c9_mem disp0 keys0 0 = some (c1, c9_mem, disp0) ∧
      c1.prog_counter = 0x300 ∧
      ∃ c2, c1.tick c9_mem disp0 keys0 0 = some (c2, c9_mem, disp0) ∧
        c2.prog_counter = CPU.default.prog_counter + 2 :=
  (chipate_C9_call_return CPU.default c9_mem disp0 keys0 0).2.2 0x300 0x23 0x00
    (by decide) (by decide) (by decide) (by decide) (by decide)

/-- C5: `Subtract` stores the 8-bit wrapping difference `Vx - Vy` into
`Vx` (characterized by `(result + Vy) % 256 = Vx % 256` with
`result < 256`) and sets `VF` to 1 exactly when the subtraction did not
borrow (`Vy ≤ Vx`); `SubtractRev` does the same for `Vy - Vx`. -/
theorem chipate_C5_subtract_borrow
    (cpu : CPU) (mem : RAM) (disp : DisplayState) (keys : KeyState) (rand : Nat)
    (vx vy : Fin 16)
    (hx : cpu.registers.vs vx < 256) (hy : cpu.registers.vs vy < 256) :
    (∃ c, cpu.execute (Instruction.Subtract vx vy) mem disp keys rand =
        some (c, mem, disp) ∧
      c.registers.vs 15 =
        (if cpu.registers.vs vy ≤ cpu.registers.vs vx then 1 else 0) ∧
      (vx ≠ 15 →
        (c.registers.vs vx + cpu.registers.vs vy) % 256 =
          cpu.registers.vs vx % 256 ∧
        c.registers.vs vx < 256)) ∧
    (∃ c, cpu.execute (Instruction.SubtractRev vx vy) mem disp keys rand =
        some (c, mem, disp) ∧
      c.registers.vs 15 =
        (if cpu.registers.vs vx ≤ cpu.registers.vs vy then 1 else 0) ∧
      (vx ≠ 15 →
        (c.registers.vs vx + cpu.registers.vs vx) % 256 =
          cpu.registers.vs vy % 256 ∧
        c.registers.vs vx < 256)) := by
  constructor
  · simp only [CPU.execute, CPU.executeInner]
    refine ⟨_, rfl, ?_, ?_⟩
    · by_cases hlt : cpu.registers.vs vx < cpu.registers.vs vy
      · rw [if_pos hlt, if_neg (by omega), set_f_vs]
      · rw [if_neg hlt, if_pos (by omega), set_f_vs]
    · intro hne
      by_cases hlt : cpu.registers.vs vx < cpu.registers.vs vy
      · rw [if_pos hlt, set_f_vs_ne _ _ hne]
        simp only [Function.update_same]
        omega
      · rw [if_neg hlt, set_f_vs_ne _ _ hne]
        simp only [Function.update_same]
        omega
  · simp only [CPU.execute, CPU.executeInner]
    refine ⟨_, rfl, ?_, ?_⟩
    · by_cases hlt : cpu.registers.vs vy < cpu.registers.vs vx
      · rw [if_pos hlt, if_neg (by omega), set_f_vs]
      · rw [if_neg hlt, if_pos (by omega), set_f_vs]
    · intro hne
      by_cases hlt : cpu.registers.vs vy < cpu.registers.vs vx
      · rw [if_pos hlt, set_f_vs_ne _ _ hne]
        simp only [Function.update_same]
        omega
      · rw [if_neg hlt, set_f_vs_ne _ _ hne]
        simp only [Function.update_same]
        omega

/-- C5 witness: `V0 = 0x05`, `V1 = 0x03` satisfies the range hypotheses
and the theorem applies. -/
theorem chipate_C5_subtract_borrow_witness :
    c5_cpu.registers.vs 0 < 256 ∧ c5_cpu.registers.vs 1 < 256 ∧
    ((∃ c, c5_cpu.execute (Instruction.Subtract 0 1) mem0 disp0 keys0 0 =
        some (c, mem0, disp0) ∧
      c.registers.vs 15 =
        (if c5_cpu.registers.vs 1 ≤ c5_cpu.registers.vs 0 then 1 else 0) ∧
      ((0 : Fin 16) ≠ 15 →
        (c.registers.vs 0 + c5_cpu.registers.vs 1) % 256 =
          c5_cpu.registers.vs 0 % 256 ∧
        c.registers.vs 0 < 256)) ∧
    (∃ c, c5_cpu.execute (Instruction.SubtractRev 0 1) mem0 disp0 keys0 0 =
        some (c, mem0, disp0) ∧
      c.registers.vs 15 =
        (if c5_cpu.registers.vs 0 ≤ c5_cpu.registers.vs 1 then 1 else 0) ∧
      ((0 : Fin 16) ≠ 15 →
        (c.registers.vs 0 + c5_cpu.registers.vs 0) % 256 =
          c5_cpu.registers.vs 1 % 256 ∧
        c.registers.vs 0 < 256))) :=
  ⟨by decide, by decide,
    chipate_C5_subtract_borrow c5_cpu mem0 disp0 keys0 0 0 1 (by decide) (by decide)⟩

/-- C6: in `Classic` mode the shifts first copy `Vy` into `Vx` and operate
on that copied value; in `Modern` mode they operate in place on `Vx`,
ignoring `Vy`.  `ShiftLeft` sets `VF` to bit 7 of the pre-shift value and
stores the wrapped doubled value; `ShiftRight` sets `VF` to bit 0 and
stores the halved value. -/
theorem chipate_C6_shift_semantics
    (cpu : CPU) (mem : RAM) (disp : DisplayState) (keys : KeyState) (rand : Nat)
    (vx vy : Fin 16) (h : ∀ k, cpu.registers.vs k < 256) :
    (∃ c, cpu.execute (Instruction.ShiftLeft vx vy) mem disp keys rand =
        some (c, mem, disp) ∧
      c.registers.vs 15 =
        (if cpu.mode = Mode.Classic
          then cpu.registers.vs vy else cpu.registers.vs vx) / 128 ∧
      (vx ≠ 15 → c.registers.vs vx =
        ((if cpu.mode = Mode.Classic
          then cpu.registers.vs vy else cpu.registers.vs vx) * 2) % 256)) ∧
    (∃ c, cpu.execute (Instruction.ShiftRight vx vy) mem disp keys rand =
        some (c, mem, disp) ∧
      c.registers.vs 15 =
        (if cpu.mode = Mode.Classic
          then cpu.registers.vs vy else cpu.registers.vs vx) % 2 ∧
      (vx ≠ 15 → c.registers.vs vx =
        (if cpu.mode = Mode.Classic
          then cpu.registers.vs vy else cpu.registers.vs vx) / 2)) := by
  by_cases hm : cpu.mode = Mode.Classic
  · constructor
    · simp only [CPU.execute, CPU.executeInner]
      rw [if_pos hm]
      refine ⟨_, rfl, ?_, ?_⟩
      · rw [set_f_ite, set_f_vs, if_pos hm]
        simp only [Function.update_same]
        exact flag_and_128 _ (h vy)
      · intro hne
        rw [set_f_ite, set_f_vs_ne _ _ hne, if_pos hm]
        simp only [Function.update_same]
    · simp only [CPU.execute, CPU.executeInner]
      rw [if_pos hm]
      refine ⟨_, rfl, ?_, ?_⟩
      · rw [set_f_ite, set_f_vs, if_pos hm]
        simp only [Function.update_same]
        exact flag_and_1 _
      · intro hne
        rw [set_f_ite, set_f_vs_ne _ _ hne, if_pos hm]
        simp only [Function.update_same]
  · constructor
    · simp only [CPU.execute, CPU.executeInner]
      rw [if_neg hm]
      refine ⟨_, rfl, ?_, ?_⟩
      · rw [set_f_ite, set_f_vs, if_neg hm]
        exact flag_and_128 _ (h vx)
      · intro hne
        rw [set_f_ite, set_f_vs_ne _ _ hne, if_neg hm]
        simp only [Function.update_same]
    · simp only [CPU.execute, CPU.executeInner]
      rw [if_neg hm]
      refine ⟨_, rfl, ?_, ?_⟩
      · rw [set_f_ite, set_f_vs, if_neg hm]
        exact flag_and_1 _
      · intro hne
        rw [set_f_ite, set_f_vs_ne _ _ hne, if_neg hm]
        simp only [Function.update_same]

/-- C6 witness: `Classic` mode with `Vx = V0 = 0x00`, `Vy = V1 = 0x81`:
the theorem applies, giving `V0 = 0x02` and `VF = 1` for `ShiftLeft`. -/
theorem chipate_C6_shift_semantics_witness :
    (∀ k, c6_cpu.registers.vs k < 256) ∧
    ((∃ c, c6_cpu.execute (Instruction.ShiftLeft 0 1) mem0 disp0 keys0 0 =
        some (c, mem0, disp0) ∧
      c.registers.vs 15 =
        (if c6_cpu.mode = Mode.Classic
          then c6_cpu.registers.vs 1 else c6_cpu.registers.vs 0) / 128 ∧
      ((0 : Fin 16) ≠ 15 → c.registers.vs 0 =
        ((if c6_cpu.mode = Mode.Classic
          then c6_cpu.registers.vs 1 else c6_cpu.registers.vs 0) * 2) % 256)) ∧
    (∃ c, c6_cpu.execute (Instruction.ShiftRight 0 1) mem0 disp0 keys0 0 =
        some (c, mem0, disp0) ∧
      c.registers.vs 15 =
        (if c6_cpu.mode = Mode.Classic
          then c6_cpu.registers.vs 1 else c6_cpu.registers.vs 0) % 2 ∧
      ((0 : Fin 16) ≠ 15 → c.registers.vs 0 =
        (if c6_cpu.mode = Mode.Classic
          then c6_cpu.registers.vs 1 else c6_cpu.registers.vs 0) / 2))) :=
  ⟨by decide, chipate_C6_shift_semantics c6_cpu mem0 disp0 keys0 0 0 1 (by decide)⟩

/-- `find?` returns the marked element when everything before it fails the
predicate. -/
theorem find?_append_of_first {α : Type} (p : α → Bool) (a : α) :
    ∀ pre post : List α, (∀ x ∈ pre, p x = false) → p a = true →
      List.find? p (pre ++ a :: post) = some a := by
  intro pre
  induction pre with
  | nil =>
    intro post hpre hp
    simpa using List.find?_cons_of_pos _ hp
  | cons b bs ih =>
    intro post hpre hp
    have hb : ¬ p b = true := by
      rw [hpre b (by simp)]
      simp
    rw [List.cons_append, List.find?_cons_of_neg _ hb]
    exact ih post (fun x hx => hpre x (by simp [hx])) hp

/-- `get_pressed_key` returns the lowest-indexed pressed key. -/
theorem get_pressed_key_least (k : KeyState) (j : Fin 16)
    (hj : k.keys j = true) (hmin : ∀ x : Fin 16, x < j → k.keys x = false) :
    k.get_pressed_key = some j.val := by
  unfold KeyState.get_pressed_key
  have hlen : j.val < (List.finRange 16).length := by
    simp
  have hsplit : List.finRange 16 =
      (List.finRange 16).take j.val ++ j :: (List.finRange 16).drop (j.val + 1) := by
    conv_lhs => rw [← List.take_append_drop j.val (List.finRange 16)]
    rw [List.drop_eq_getElem_cons hlen]
    congr 2
    rw [List.getElem_finRange]
    apply Fin.ext
    simp
  have hpre : ∀ x ∈ (List.finRange 16).take j.val, k.keys x = false := by
    intro x hx
    apply hmin
    rcases List.mem_take_iff_getElem.mp hx with ⟨i, hi, hget⟩
    have hxv : x.val = i := by
      rw [← hget, List.getElem_finRange]
      simp
    rw [Fin.lt_def, hxv]
    omega
  rw [hsplit, find?_append_of_first _ _ _ _ hpre hj]
  rfl

/-- C7: when a tick fetches a blocking `GetKey` and no key is pressed, the
net change of the program counter is zero (the rewind cancels the fetch
advance) and the registers are untouched; on a tick where keys are
pressed, the lowest-indexed pressed key is written to the target register
and the program counter advances past the instruction. -/
theorem chipate_C7_getkey_blocking
    (cpu : CPU) (mem : RAM) (disp : DisplayState) (keys : KeyState) (rand : Nat)
    (v : Fin 16) (high low : Nat)
    (h1 : mem.read cpu.prog_counter = some high)
    (h2 : mem.read (cpu.prog_counter + 1) = some low)
    (hdec : Instruction.from_op_code ((high <<< 8) ||| low) =
      some (Instruction.GetKey v)) :
    ((∀ k, keys.keys k = false) →
      ∃ c, cpu.tick mem disp keys rand = some (c, mem, disp) ∧
        c.prog_counter = cpu.prog_counter ∧
        c.registers = cpu.registers) ∧
    (∀ j : Fin 16, keys.keys j = true →
      (∀ x : Fin 16, x < j → keys.keys x = false) →
      ∃ c, cpu.tick mem disp keys rand = some (c, mem, disp) ∧
        c.prog_counter = cpu.prog_counter + 2 ∧
        c.registers.vs v = j.val) := by
  constructor
  · intro hnone
    have hget : keys.get_pressed_key = none := by
      unfold KeyState.get_pressed_key
      rw [List.find?_eq_none.mpr ?_]
      · rfl
      · intro x _
        rw [hnone x]
        simp
    simp only [CPU.tick, h1, h2, hdec]
    simp only [CPU.execute, CPU.executeInner, hget]
    rw [if_neg (by omega)]
    refine ⟨_, rfl, ?_, rfl⟩
    show cpu.prog_counter + 2 - 2 = cpu.prog_counter
    omega
  · intro j hj hmin
    have hget : keys.get_pressed_key = some j.val :=
      get_pressed_key_least keys j hj hmin
    simp only [CPU.tick, h1, h2, hdec]
    simp only [CPU.execute, CPU.executeInner, hget]
    refine ⟨_, rfl, rfl, ?_⟩
    simp [Function.update_same]

/-- C7 witness: with the get-key opcode `0xF30A` at `0x200` and keys 5 and
9 pressed, the pressed branch of the theorem applies at `j = 5`. -/
theorem chipate_C7_getkey_blocking_witness :
    c7_mem.read CPU.default.prog_counter = some 0xF3 ∧
    ∃ c, CPU.default.tick c7_mem disp0 c7_keys 0 = some (c, c7_mem, disp0) ∧
      c.prog_counter = CPU.default.prog_counter + 2 ∧
      c.registers.vs 3 = (5 : Fin 16).val :=
  ⟨by decide,
    (chipate_C7_getkey_blocking CPU.default c7_mem disp0 c7_keys 0 3 0xF3 0x0A
      (by decide) (by decide) (by decide)).2 5 (by decide) (by decide)⟩

/-- A successful write makes the written address read back the byte. -/
theorem read_write_self (m m2 : RAM) (a b : Nat) (hw : m.write a b = some m2) :
    m2.read a = some b := by
  unfold RAM.write at hw
  by_cases h : a < 4096
  · rw [dif_pos h] at hw
    cases hw
    unfold RAM.read
    rw [dif_pos h]
    simp [Function.update_same]
  · rw [dif_neg h] at hw
    cases hw

/-- A successful write leaves every other address unchanged. -/
theorem read_write_other (m m2 : RAM) (a b c : Nat) (hw : m.write a b = some m2)
    (hne : c ≠ a) : m2.read c = m.read c := by
  unfold RAM.write at hw
  by_cases h : a < 4096
  · rw [dif_pos h] at hw
    cases hw
    unfold RAM.read
    by_cases hc : c < 4096
    · rw [dif_pos hc, dif_pos hc]
      have : (⟨c, hc⟩ : Fin 4096) ≠ ⟨a, h⟩ := by
        intro he
        exact hne (congrArg Fin.val he)
      simp [Function.update_noteq this]
    · rw [dif_neg hc, dif_neg hc]
  · rw [dif_neg h] at hw
    cases hw

/-- An in-bounds address can be written. -/
theorem write_is_some (m : RAM) (a b : Nat) (h : a < 4096) :
    ∃ m2, m.write a b = some m2 := by
  unfold RAM.write
  rw [dif_pos h]
  exact ⟨_, rfl⟩

/-- An in-bounds address can be read. -/
theorem read_is_some (m : RAM) (a : Nat) (h : a < 4096) :
    ∃ b, m.read a = some b := by
  unfold RAM.read
  rw [dif_pos h]
  exact ⟨_, rfl⟩

/-- The `Classic` store loop writes register `k` at offset `k` from the
starting index, ends with the index advanced by the number of transferred
registers, and leaves lower addresses alone. -/
theorem storeClassic_spec (vs : Fin 16 → Nat) :
    ∀ (l : List (Fin 16)) (i : Nat) (m : RAM), i + l.length ≤ 4096 →
      ∃ m2, storeClassic vs l i m = some (i + l.length, m2) ∧
        (∀ k (hk : k < l.length), m2.read (i + k) = some (vs (l.get ⟨k, hk⟩))) ∧
        (∀ a, a < i → m2.read a = m.read a) := by
  intro l
  induction l with
  | nil =>
    intro i m hb
    exact ⟨m, by simp [storeClassic], fun k hk => absurd hk (by simp),
      fun a _ => rfl⟩
  | cons x xs ih =>
    intro i m hb
    have hlen : (x :: xs).length = xs.length + 1 := by simp
    have hi : i < 4096 := by omega
    rcases write_is_some m i (vs x) hi with ⟨m1, hw⟩
    rcases ih (i + 1) m1 (by rw [hlen] at hb; omega) with ⟨m2, hrec, hin, hout⟩
    refine ⟨m2, ?_, ?_, ?_⟩
    · unfold storeClassic
      rw [hw]
      show storeClassic vs xs (i + 1) m1 = some (i + (x :: xs).length, m2)
      rw [hrec, hlen]
      congr 2
      omega
    · intro k hk
      cases k with
      | zero =>
        have hm2 : m2.read i = m1.read i := hout i (by omega)
        rw [Nat.add_zero, hm2]
        exact read_write_self m m1 i (vs x) hw
      | succ k2 =>
        have hk2 : k2 < xs.length := by rw [hlen] at hk; omega
        have ha : i + (k2 + 1) = (i + 1) + k2 := by omega
        rw [ha]
        simpa using hin k2 hk2
    · intro a halt
      rw [hout a (by omega)]
      exact read_write_other m m1 i (vs x) a hw (by omega)

/-- The `Modern` store loop writes register `k` at `index + k` and leaves
all other addresses alone; the index register is not involved. -/
theorem storeModern_spec (vs : Fin 16 → Nat) (i0 : Nat) :
    ∀ (l : List (Fin 16)) (m : RAM), l.Nodup →
      (∀ k ∈ l, i0 + k.val < 4096) →
      ∃ m2, storeModern vs i0 l m = some m2 ∧
        (∀ k ∈ l, m2.read (i0 + k.val) = some (vs k)) ∧
        (∀ a, (∀ k ∈ l, a ≠ i0 + k.val) → m2.read a = m.read a) := by
  intro l
  induction l with
  | nil =>
    intro m _ _
    exact ⟨m, by simp [storeModern], fun k hk => absurd hk (by simp),
      fun a _ => rfl⟩
  | cons x xs ih =>
    intro m hnd hbound
    rcases write_is_some m (i0 + x.val) (vs x) (hbound x (by simp)) with ⟨m1, hw⟩
    have hnd2 := hnd
    rw [List.nodup_cons] at hnd2
    rcases ih m1 hnd2.2 (fun k hk => hbound k (by simp [hk])) with
      ⟨m2, hrec, hin, hout⟩
    refine ⟨m2, ?_, ?_, ?_⟩
    · unfold storeModern
      rw [hw]
      show storeModern vs i0 xs m1 = some m2
      exact hrec
    · intro k hk
      rcases List.mem_cons.mp hk with he | hxs
      · subst he
        have hne : ∀ k2 ∈ xs, i0 + k.val ≠ i0 + k2.val := by
          intro k2 hk2 hcontra
          have : k = k2 := Fin.ext (by omega)
          exact hnd2.1 (this ▸ hk2)
        rw [hout (i0 + k.val) hne]
        exact read_write_self m m1 (i0 + k.val) (vs k) hw
      · exact hin k hxs
    · intro a hne
      rw [hout a (fun k hk => hne k (by simp [hk]))]
      exact read_write_other m m1 (i0 + x.val) (vs x) a hw (hne x (by simp))

/-- The `Classic` load loop reads register `k` from offset `k` from the
starting index, advances the index by the number of transferred registers
and leaves registers outside the transferred range alone. -/
theorem loadClassic_spec (mem : RAM) :
    ∀ (l : List (Fin 16)) (r : Registers), l.Nodup → r.i + l.length ≤ 4096 →
      ∃ r2, loadClassic mem l r = some r2 ∧ r2.i = r.i + l.length ∧
        (∀ k (hk : k < l.length),
          mem.read (r.i + k) = some (r2.vs (l.get ⟨k, hk⟩))) ∧
        (∀ x : Fin 16, x ∉ l → r2.vs x = r.vs x) := by
  intro l
  induction l with
  | nil =>
    intro r _ _
    exact ⟨r, by simp [loadClassic], by simp, fun k hk => absurd hk (by simp),
      fun x _ => rfl⟩
  | cons x xs ih =>
    intro r hnd hb
    have hlen : (x :: xs).length = xs.length + 1 := by simp
    have hi : r.i < 4096 := by omega
    rcases read_is_some mem r.i hi with ⟨b, hrd⟩
    have hnd2 := hnd
    rw [List.nodup_cons] at hnd2
    rcases ih ⟨Function.update r.vs x b, r.i + 1⟩ hnd2.2
        (by rw [hlen] at hb; simp; omega) with ⟨r2, hrec, hri, hin, hout⟩
    refine ⟨r2, ?_, ?_, ?_, ?_⟩
    · unfold loadClassic
      rw [hrd]
      show loadClassic mem xs ⟨Function.update r.vs x b, r.i + 1⟩ = some r2
      exact hrec
    · rw [hri, hlen]
      simp
      omega
    · intro k hk
      cases k with
      | zero =>
        rw [Nat.add_zero, hrd]
        have hvx : r2.vs x = b := by
          rw [hout x hnd2.1]
          simp [Function.update_same]
        simp [hvx]
      | succ k2 =>
        have hk2 : k2 < xs.length := by rw [hlen] at hk; omega
        have ha : r.i + (k2 + 1) = (r.i + 1) + k2 := by omega
        rw [ha]
        have := hin k2 hk2
        simp at this
        simpa using this
    · intro y hy
      have hyx : y ≠ x := fun he => hy (by simp [he])
      have hyxs : y ∉ xs := fun hc => hy (by simp [hc])
      rw [hout y hyxs]
      simp [Function.update_noteq hyx]

/-- The `Modern` load loop reads register `k` from `index + k` and leaves
registers outside the transferred range alone; the index register is not
involved. -/
theorem loadModern_spec (mem : RAM) (i0 : Nat) :
    ∀ (l : List (Fin 16)) (vs : Fin 16 → Nat), l.Nodup →
      (∀ k ∈ l, i0 + k.val < 4096) →
      ∃ vs2, loadModern mem i0 l vs = some vs2 ∧
        (∀ k ∈ l, mem.read (i0 + k.val) = some (vs2 k)) ∧
        (∀ x : Fin 16, x ∉ l → vs2 x = vs x) := by
  intro l
  induction l with
  | nil =>
    intro vs _ _
    exact ⟨vs, by simp [loadModern], fun k hk => absurd hk (by simp),
      fun x _ => rfl⟩
  | cons x xs ih =>
    intro vs hnd hbound
    rcases read_is_some mem (i0 + x.val) (hbound x (by simp)) with ⟨b, hrd⟩
    have hnd2 := hnd
    rw [List.nodup_cons] at hnd2
    rcases ih (Function.update vs x b) hnd2.2
        (fun k hk => hbound k (by simp [hk])) with ⟨vs2, hrec, hin, hout⟩
    refine ⟨vs2, ?_, ?_, ?_⟩
    · unfold loadModern
      rw [hrd]
      show loadModern mem i0 xs (Function.update vs x b) = some vs2
      exact hrec
    · intro k hk
      rcases List.mem_cons.mp hk with he | hxs
      · subst he
        rw [hrd]
        have hvx : vs2 k = b := by
          rw [hout k hnd2.1]
          simp [Function.update_same]
        simp [hvx]
      · exact hin k hxs
    · intro y hy
      have hyx : y ≠ x := fun he => hy (by simp [he])
      have hyxs : y ∉ xs := fun hc => hy (by simp [hc])
      rw [hout y hyxs]
      simp [Function.update_noteq hyx]

/-- The transfer list `V0..VX` has length `X + 1`. -/
theorem take_finRange_length (n : Fin 16) :
    ((List.finRange 16).take (n.val + 1)).length = n.val + 1 := by
  rw [List.length_take, List.length_finRange]
  have := n.isLt
  omega

/-- The `k`-th element of the transfer list is the register index `k`. -/
theorem take_finRange_get_val (n : Fin 16) (k : Nat)
    (hlt : k < ((List.finRange 16).take (n.val + 1)).length) :
    (((List.finRange 16).take (n.val + 1)).get ⟨k, hlt⟩).val = k := by
  have h1 : ((List.finRange 16).take (n.val + 1)).get ⟨k, hlt⟩ =
      ((List.finRange 16).take (n.val + 1))[k] := rfl
  rw [h1, List.getElem_take, List.getElem_finRange]
  simp

/-- The transfer list contains exactly the registers `V0..VX`. -/
theorem mem_take_finRange (n : Fin 16) (k : Fin 16) :
    k ∈ (List.finRange 16).take (n.val + 1) ↔ k.val ≤ n.val := by
  rw [List.mem_take_iff_getElem]
  constructor
  · rintro ⟨i, hi, hget⟩
    have hkv : k.val = i := by
      rw [← hget, List.getElem_finRange]
      simp
    simp at hi
    omega
  · intro hle
    have h16 : k.val < (List.finRange 16).length := by
      simp
    refine ⟨k.val, ?_, ?_⟩
    · have := k.isLt
      simp
      omega
    · rw [List.getElem_finRange]
      apply Fin.ext
      simp

/-- The transfer list has no duplicate register indices. -/
theorem take_finRange_nodup (n : Fin 16) :
    ((List.finRange 16).take (n.val + 1)).Nodup :=
  List.Nodup.sublist (List.take_sublist _ _) (List.nodup_finRange 16)

/-- C8: the `FX55` store and `FX65` load cover registers `V0..VX`
inclusive; in `Classic` mode the index register ends at its original value
plus `X + 1`, while in `Modern` mode it is left unmodified; in both modes
byte `k` is addressed at `index + k`. -/
theorem chipate_C8_register_block_transfer
    (cpu : CPU) (mem : RAM) (disp : DisplayState) (keys : KeyState) (rand : Nat)
    (n : Fin 16) (hb : cpu.registers.i + n.val + 1 ≤ 4096) :
    (cpu.mode = Mode.Classic →
      ∃ c m2, cpu.execute (Instruction.Store n) mem disp keys rand =
          some (c, m2, disp) ∧
        c.registers.i = cpu.registers.i + n.val + 1 ∧
        ∀ k : Fin 16, k ≤ n →
          m2.read (cpu.registers.i + k.val) = some (cpu.registers.vs k)) ∧
    (cpu.mode = Mode.Modern →
      ∃ c m2, cpu.execute (Instruction.Store n) mem disp keys rand =
          some (c, m2, disp) ∧
        c.registers.i = cpu.registers.i ∧
        ∀ k : Fin 16, k ≤ n →
          m2.read (cpu.registers.i + k.val) = some (cpu.registers.vs k)) ∧
    (cpu.mode = Mode.Classic →
      ∃ c, cpu.execute (Instruction.Load n) mem disp keys rand =
          some (c, mem, disp) ∧
        c.registers.i = cpu.registers.i + n.val + 1 ∧
        ∀ k : Fin 16, k ≤ n →
          mem.read (cpu.registers.i + k.val) = some (c.registers.vs k)) ∧
    (cpu.mode = Mode.Modern →
      ∃ c, cpu.execute (Instruction.Load n) mem disp keys rand =
          some (c, mem, disp) ∧
        c.registers.i = cpu.registers.i ∧
        ∀ k : Fin 16, k ≤ n →
          mem.read (cpu.registers.i + k.val) = some (c.registers.vs k)) := by
  have hlen := take_finRange_length n
  have hnd := take_finRange_nodup n
  refine ⟨?_, ?_, ?_, ?_⟩
  · intro hm
    rcases storeClassic_spec cpu.registers.vs
        ((List.finRange 16).take (n.val + 1)) cpu.registers.i mem
        (by rw [hlen]; omega) with ⟨m2, hrec, hin, _⟩
    rw [hlen] at hrec
    have hexec : ∃ c, cpu.execute (Instruction.Store n) mem disp keys rand =
        some (c, m2, disp) ∧ c.registers.i = cpu.registers.i + (n.val + 1) := by
      simp only [CPU.execute, CPU.executeInner, hm]
      rw [hrec]
      exact ⟨_, rfl, rfl⟩
    rcases hexec with ⟨c, hex, hci⟩
    refine ⟨c, m2, hex, by rw [hci]; omega, ?_⟩
    intro k hk
    have hkl : k.val < ((List.finRange 16).take (n.val + 1)).length := by
      rw [hlen]
      have := Fin.le_def.mp hk
      omega
    have hread := hin k.val hkl
    have hg : ((List.finRange 16).take (n.val + 1)).get ⟨k.val, hkl⟩ = k :=
      Fin.ext (take_finRange_get_val n k.val hkl)
    rw [hg] at hread
    exact hread
  · intro hm
    rcases storeModern_spec cpu.registers.vs cpu.registers.i
        ((List.finRange 16).take (n.val + 1)) mem hnd
        (by
          intro k hk
          have := (mem_take_finRange n k).mp hk
          omega) with ⟨m2, hrec, hin, _⟩
    have hexec : ∃ c, cpu.execute (Instruction.Store n) mem disp keys rand =
        some (c, m2, disp) ∧ c.registers.i = cpu.registers.i := by
      simp only [CPU.execute, CPU.executeInner, hm]
      rw [hrec]
      exact ⟨_, rfl, rfl⟩
    rcases hexec with ⟨c, hex, hci⟩
    refine ⟨c, m2, hex, hci, ?_⟩
    intro k hk
    exact hin k ((mem_take_finRange n k).mpr (Fin.le_def.mp hk))
  · intro hm
    rcases loadClassic_spec mem ((List.finRange 16).take (n.val + 1))
        cpu.registers hnd (by rw [hlen]; omega) with ⟨r2, hrec, hri, hin, _⟩
    have hexec : ∃ c, cpu.execute (Instruction.Load n) mem disp keys rand =
        some (c, mem, disp) ∧ c.registers = r2 := by
      simp only [CPU.execute, CPU.executeInner, hm]
      rw [hrec]
      exact ⟨_, rfl, rfl⟩
    rcases hexec with ⟨c, hex, hcr⟩
    refine ⟨c, hex, by rw [hcr, hri, hlen]; omega, ?_⟩
    intro k hk
    have hkl : k.val < ((List.finRange 16).take (n.val + 1)).length := by
      rw [hlen]
      have := Fin.le_def.mp hk
      omega
    have hread := hin k.val hkl
    have hg : ((List.finRange 16).take (n.val + 1)).get ⟨k.val, hkl⟩ = k :=
      Fin.ext (take_finRange_get_val n k.val hkl)
    rw [hg] at hread
    rw [hcr]
    exact hread
  · intro hm
    rcases loadModern_spec mem cpu.registers.i
        ((List.finRange 16).take (n.val + 1)) cpu.registers.vs hnd
        (by
          intro k hk
          have := (mem_take_finRange n k).mp hk
          omega) with ⟨vs2, hrec, hin, _⟩
    have hexec : ∃ c, cpu.execute (Instruction.Load n) mem disp keys rand =
        some (c, mem, disp) ∧ c.registers.i = cpu.registers.i ∧
          c.registers.vs = vs2 := by
      simp only [CPU.execute, CPU.executeInner, hm]
      rw [hrec]
      exact ⟨_, rfl, rfl, rfl⟩
    rcases hexec with ⟨c, hex, hci, hcv⟩
    refine ⟨c, hex, hci, ?_⟩
    intro k hk
    rw [hcv]
    exact hin k ((mem_take_finRange n k).mpr (Fin.le_def.mp hk))

/-- C8 witness: `Classic` store with `X = 2`, `I = 0x400` applies. -/
theorem chipate_C8_register_block_transfer_witness :
    c8_cpu.registers.i + (2 : Fin 16).val + 1 ≤ 4096 ∧
    c8_cpu.mode = Mode.Classic ∧
    ∃ c m2, c8_cpu.execute (Instruction.Store 2) mem0 disp0 keys0 0 =
        some (c, m2, disp0) ∧
      c.registers.i = c8_cpu.registers.i + (2 : Fin 16).val + 1 ∧
      ∀ k : Fin 16, k ≤ 2 →
        m2.read (c8_cpu.registers.i + k.val) = some (c8_cpu.registers.vs k) :=
  ⟨by decide, by decide,
    (chipate_C8_register_block_transfer c8_cpu mem0 disp0 keys0 0 2
      (by decide)).1 rfl⟩

/-- A successful `executeInner` step keeps the program counter and all
stacked return addresses even, provided the program counter was even and
at least 2 at entry, the stack was all even, and any jump or call target
is even. -/
theorem executeInner_pc_stack (cpu : CPU) (ins : Instruction) (mem : RAM)
    (disp : DisplayState) (keys : KeyState) (rand : Nat)
    (c : CPU) (m : RAM) (d : DisplayState)
    (hex : cpu.executeInner ins mem disp keys rand = some (c, m, d))
    (hev : evenTarget ins)
    (hpc : cpu.prog_counter % 2 = 0)
    (hpc2 : 2 ≤ cpu.prog_counter)
    (hst : ∀ a ∈ cpu.stack, a % 2 = 0) :
    c.prog_counter % 2 = 0 ∧ ∀ a ∈ c.stack, a % 2 = 0 := by
  cases ins with
  | Jump address =>
    simp only [CPU.executeInner] at hex
    cases hex
    exact ⟨hev, hst⟩
  | SubroutineCall address =>
    simp only [CPU.executeInner] at hex
    cases hex
    refine ⟨hev, ?_⟩
    intro a ha
    simp only [stackPush, List.mem_cons] at ha
    rcases ha with rfl | ha
    · exact hpc
    · exact hst a ha
  | SubroutineReturn =>
    simp only [CPU.executeInner] at hex
    split at hex
    · rename_i address rest heq
      cases hex
      cases hs : cpu.stack with
      | nil =>
        rw [hs] at heq
        simp [stackPop] at heq
      | cons a rest2 =>
        rw [hs] at heq
        simp only [stackPop, Option.some.injEq, Prod.mk.injEq] at heq
        obtain ⟨h1, h2⟩ := heq
        subst h1
        subst h2
        constructor
        · exact hst a (by rw [hs]; exact List.mem_cons_self a rest2)
        · intro b hb
          exact hst b (by rw [hs]; exact List.mem_cons_of_mem a hb)
    · cases hex
      exact ⟨hpc, hst⟩
  | _ =>
    simp only [CPU.executeInner] at hex
    repeat' split at hex
    all_goals first
      | exact Option.noConfusion hex
      | (cases hex; exact ⟨hpc, hst⟩)
      | (cases hex
         refine ⟨?_, hst⟩
         show (cpu.prog_counter + 2) % 2 = 0
         omega)
      | (cases hex
         refine ⟨?_, hst⟩
         show (cpu.prog_counter - 2) % 2 = 0
         omega)

/-- The history append in `execute` does not touch the program counter or
the stack, so the invariant transfers from `executeInner` to `execute`. -/
theorem execute_pc_stack (cpu : CPU) (ins : Instruction) (mem : RAM)
    (disp : DisplayState) (keys : KeyState) (rand : Nat)
    (c : CPU) (m : RAM) (d : DisplayState)
    (hex : cpu.execute ins mem disp keys rand = some (c, m, d))
    (hev : evenTarget ins)
    (hpc : cpu.prog_counter % 2 = 0)
    (hpc2 : 2 ≤ cpu.prog_counter)
    (hst : ∀ a ∈ cpu.stack, a % 2 = 0) :
    c.prog_counter % 2 = 0 ∧ ∀ a ∈ c.stack, a % 2 = 0 := by
  unfold CPU.execute at hex
  split at hex
  · exact Option.noConfusion hex
  · rename_i heq
    cases hex
    have h7 := executeInner_pc_stack _ _ _ _ _ _ _ _ _ heq hev hpc hpc2 hst
    exact h7

/-- A constrained `tick` step preserves the alignment invariant. -/
theorem tick_pc_stack (s t : CPU × RAM × DisplayState) (hstep : StepOk s t)
    (hinv : PcInv s) : PcInv t := by
  rcases hstep with ⟨⟨keys, rand, htick⟩, hok⟩
  rcases hinv with ⟨hpc, hst⟩
  cases hr1 : s.2.1.read s.1.prog_counter with
  | none =>
    simp only [CPU.tick, hr1] at htick
    exact Option.noConfusion htick
  | some high =>
    cases hr2 : s.2.1.read (s.1.prog_counter + 1) with
    | none =>
      simp only [CPU.tick, hr1, hr2] at htick
      exact Option.noConfusion htick
    | some low =>
      have hfetch : fetched_op s.1 s.2.1 = some ((high <<< 8) ||| low) := by
        unfold fetched_op
        rw [hr1, hr2]
      simp only [CPU.tick, hr1, hr2] at htick
      cases hdec : Instruction.from_op_code ((high <<< 8) ||| low) with
      | none =>
        simp only [hdec] at htick
        cases htick
        exact ⟨by show (s.1.prog_counter + 2) % 2 = 0; omega, hst⟩
      | some ins =>
        simp only [hdec] at htick
        have hev : evenTarget ins := hok _ ins hfetch hdec
        have hmain := execute_pc_stack
          { s.1 with prog_counter := s.1.prog_counter + 2 } ins s.2.1 s.2.2
          keys rand t.1 t.2.1 t.2.2 htick hev (by show (s.1.prog_counter + 2) % 2 = 0; omega)
          (by show 2 ≤ s.1.prog_counter + 2; omega) hst
        exact hmain

/-- C4 amended: from the initial state (program counter `0x200`), over any
memory contents, every state reachable by ticks in which each decoded jump
or subroutine-call targets an even address has an even-aligned program
counter.  (As stated the claim is false: a jump to an odd address breaks
it — see the counterexample.) -/
theorem chipate_C4_even_pc_amended (m : RAM) (d : DisplayState)
    (s : CPU × RAM × DisplayState)
    (h : Relation.ReflTransGen StepOk (CPU.default, m, d) s) :
    s.1.prog_counter % 2 = 0 := by
  have hinv : PcInv s := by
    induction h with
    | refl =>
      constructor
      · show PROGRAM_COUNTER_START % 2 = 0
        decide
      · intro a ha
        simp [CPU.default] at ha
    | tail h1 h2 ih => exact tick_pc_stack _ _ h2 ih
  exact hinv.1

/-- C4 amended witness: the initial state itself is reachable and its
program counter `0x200` is even. -/
theorem chipate_C4_even_pc_amended_witness :
    (CPU.default, mem0, disp0).1.prog_counter % 2 = 0 :=
  chipate_C4_even_pc_amended mem0 disp0 (CPU.default, mem0, disp0)
    Relation.ReflTransGen.refl

end Chipate
